import Mathlib

/-!
Shallow embedding of `raidquaza/search/qgram_index.py` from the
discord-searchbot repository: q-gram tokenization, posting-list merging,
the bounded prefix edit distance, the alignment scorers, index building
and the `find_matches` query pipeline, together with theorems checking
the design document against this embedding.
-/

namespace Raidquaza

/-- Modelled from the spec: the record categories (`search.enums.RECORD_TYPE`
is imported by `qgram_index.py` but is not among the sources); §3 lists the
members GYM, POKESTOP, UNKNOWN. -/
inductive RECORD_TYPE where
  | GYM
  | POKESTOP
  | UNKNOWN
deriving DecidableEq, Repr

/-- Modelled from the spec: the scoring-method configuration values
(`search.enums.SCORING_TYPE` is imported by `qgram_index.py` but is not
among the sources); §4.5 lists LEVENSHTEIN, NEEDLEMAN_WUNSCH, AFFINE_GAPS
with default AFFINE_GAPS. -/
inductive SCORING_TYPE where
  | LEVENSHTEIN
  | NEEDLEMAN_WUNSCH
  | AFFINE_GAPS
deriving DecidableEq, Repr

/-- A Python value as it can appear in a catalog row handed to
`build_from_lists` (a string, a number, or a category tag). -/
inductive PyVal where
  | vstr (s : String)
  | vnum (n : ℚ)
  | vtype (t : RECORD_TYPE)
deriving DecidableEq, Repr

/-- `get_qgrams(str, q)`: pad with `q - 1` sentinel characters on both
sides, then return every contiguous length-`q` window of the padded text in
left-to-right order.  The window count `len(padded) - q + 1` is computed in
`ℤ`, as Python computes it, so it can be zero (for the empty string at
`q = 1` the loop body never runs). -/
def get_qgrams (s : List Char) (q : Nat) : List (List Char) :=
  let padded := List.replicate (q - 1) '$' ++ s ++ List.replicate (q - 1) '$'
  let cnt : Int := (padded.length : Int) - (q : Int) + 1
  (List.range cnt.toNat).map (fun i => (padded.drop i).take q)

/-- One `Counter.update` step for a single record id: an id already present
keeps its position and has its count incremented, a new id is appended with
count 1 (Python dicts preserve insertion order). -/
def counterUpdate (acc : List (Nat × Nat)) (x : Nat) : List (Nat × Nat) :=
  if x ∈ acc.map Prod.fst then
    acc.map (fun p => if p.1 = x then (p.1, p.2 + 1) else p)
  else acc ++ [(x, 1)]

/-- `merge(lists)`: update a `Counter` with every input list in order and
return its items. -/
def merge (lists : List (List Nat)) : List (Nat × Nat) :=
  lists.foldl (fun acc l => l.foldl counterUpdate acc) []

/-- The distinct elements of `l` in order of first occurrence. -/
def firstOccs (l : List Nat) : List Nat :=
  l.foldl (fun acc x => if x ∈ acc then acc else acc ++ [x]) []

/-- `merge` as §4.4 of the spec words it: every distinct record id that
appears in at least one input list, paired with its total number of
occurrences across all lists, ordered by first occurrence across the
concatenation of the input lists. -/
def mergeSpec (lists : List (List Nat)) : List (Nat × Nat) :=
  (firstOccs lists.flatten).map (fun x => (x, lists.flatten.count x))

theorem foldl_firstOccs_mem (l : List Nat) : ∀ (acc : List Nat) (y : Nat),
    y ∈ l.foldl (fun acc x => if x ∈ acc then acc else acc ++ [x]) acc ↔
      y ∈ acc ∨ y ∈ l := by
  induction l with
  | nil => simp
  | cons x xs ih =>
    intro acc y
    simp only [List.foldl_cons]
    rw [ih]
    by_cases hx : x ∈ acc
    · simp only [if_pos hx, List.mem_cons]
      constructor
      · rintro (h | h)
        · exact Or.inl h
        · exact Or.inr (Or.inr h)
      · rintro (h | h | h)
        · exact Or.inl h
        · exact Or.inl (h ▸ hx)
        · exact Or.inr h
    · simp only [if_neg hx, List.mem_append, List.mem_singleton, List.mem_cons]
      tauto

theorem mem_firstOccs (l : List Nat) (y : Nat) : y ∈ firstOccs l ↔ y ∈ l := by
  simpa [firstOccs] using foldl_firstOccs_mem l [] y

theorem firstOccs_snoc (p : List Nat) (x : Nat) :
    firstOccs (p ++ [x]) =
      if x ∈ p then firstOccs p else firstOccs p ++ [x] := by
  have h : firstOccs (p ++ [x]) =
      if x ∈ firstOccs p then firstOccs p else firstOccs p ++ [x] := by
    simp only [firstOccs, List.foldl_append, List.foldl_cons, List.foldl_nil]
  rw [h]
  by_cases hx : x ∈ p
  · rw [if_pos ((mem_firstOccs p x).mpr hx), if_pos hx]
  · rw [if_neg (fun hh => hx ((mem_firstOccs p x).mp hh)), if_neg hx]

/-- The `Counter` contents after processing the multiset `p`. -/
def counterOf (p : List Nat) : List (Nat × Nat) :=
  (firstOccs p).map (fun x => (x, p.count x))

theorem map_fst_counterOf (p : List Nat) :
    (counterOf p).map Prod.fst = firstOccs p := by
  simp [counterOf, List.map_map, Function.comp_def]

theorem counterUpdate_counterOf (p : List Nat) (x : Nat) :
    counterUpdate (counterOf p) x = counterOf (p ++ [x]) := by
  by_cases hx : x ∈ p
  · have hmem : x ∈ (counterOf p).map Prod.fst := by
      rw [map_fst_counterOf]; exact (mem_firstOccs p x).mpr hx
    rw [counterUpdate, if_pos hmem]
    simp only [counterOf, firstOccs_snoc, if_pos hx, List.map_map]
    apply List.map_congr_left
    intro y _
    by_cases hyx : y = x
    · subst hyx
      simp [Function.comp_def, List.count_append]
    · simp [Function.comp_def, hyx, List.count_append, List.count_cons,
        List.count_nil]
  · have hmem : x ∉ (counterOf p).map Prod.fst := by
      rw [map_fst_counterOf]
      exact fun h => hx ((mem_firstOccs p x).mp h)
    rw [counterUpdate, if_neg hmem]
    simp only [counterOf, firstOccs_snoc, if_neg hx, List.map_append,
      List.map_cons, List.map_nil]
    congr 1
    · apply List.map_congr_left
      intro y hy
      have hyp : y ∈ p := (mem_firstOccs p y).mp hy
      have hyx : y ≠ x := fun h => hx (h ▸ hyp)
      simp [List.count_append, List.count_cons, List.count_nil, hyx]
    · simp [List.count_append, List.count_eq_zero_of_not_mem hx]

theorem foldl_counterUpdate_counterOf (l : List Nat) : ∀ p : List Nat,
    l.foldl counterUpdate (counterOf p) = counterOf (p ++ l) := by
  induction l with
  | nil => intro p; simp
  | cons x xs ih =>
    intro p
    simp only [List.foldl_cons]
    rw [counterUpdate_counterOf, ih (p ++ [x])]
    simp

theorem merge_eq_foldl_flatten (lists : List (List Nat)) :
    merge lists = lists.flatten.foldl counterUpdate [] := by
  unfold merge
  rw [List.foldl_flatten]

theorem merge_eq_mergeSpec (lists : List (List Nat)) :
    merge lists = mergeSpec lists := by
  have h0 : ([] : List (Nat × Nat)) = counterOf [] := by
    simp [counterOf, firstOccs]
  rw [merge_eq_foldl_flatten, h0, foldl_counterUpdate_counterOf]
  simp [counterOf, mergeSpec]

/-- C1: for every sequence of input lists, `merge` returns every distinct
record id appearing in at least one input list paired with its total number
of occurrences across all lists, ordered by first occurrence across the
concatenation of the input lists; in particular
`merge [[1,2,3],[2,3,4],[3,4,5]] = [(1,1),(2,2),(3,3),(4,2),(5,1)]` and
`merge [[],[]] = []`. -/
theorem c1_merge_spec :
    (∀ lists : List (List Nat), merge lists = mergeSpec lists) ∧
      merge [[1, 2, 3], [2, 3, 4], [3, 4, 5]] =
        [(1, 1), (2, 2), (3, 3), (4, 2), (5, 1)] ∧
      merge [[], []] = [] :=
  ⟨merge_eq_mergeSpec, by decide, by decide⟩

theorem get_qgrams_length (s : List Char) (q : Nat) (hq : 1 ≤ q) :
    (get_qgrams s q).length = s.length + q - 1 := by
  simp only [get_qgrams, List.length_map, List.length_range, List.length_append,
    List.length_replicate]
  omega

/-- C3 counterexample: `get_qgrams("", 1)` is the empty list, so the q-gram
count is not always at least 1: at `q = 1` the empty string produces zero
q-grams. -/
theorem c3_counterexample : ¬ 1 ≤ (get_qgrams "".toList 1).length := by decide

/-- C3 (amended): for every string and every `q ≥ 1`, `get_qgrams` returns
exactly `len(text) + q - 1` q-grams (the contiguous length-`q` windows of
the padded text in left-to-right order), and this count is at least 1
whenever the text is nonempty or `q ≥ 2`; for the empty string at `q = 1`
the count is 0. -/
theorem c3_amended (s : List Char) (q : Nat) (hq : 1 ≤ q) :
    (get_qgrams s q).length = s.length + q - 1 ∧
      (2 ≤ s.length + q → 1 ≤ (get_qgrams s q).length) := by
  have h := get_qgrams_length s q hq
  exact ⟨h, fun h2 => by omega⟩

theorem c3_amended_witness :
    1 ≤ 3 ∧
      ((get_qgrams "bananarana".toList 3).length =
          "bananarana".toList.length + 3 - 1 ∧
        (2 ≤ "bananarana".toList.length + 3 →
          1 ≤ (get_qgrams "bananarana".toList 3).length)) :=
  ⟨by decide, c3_amended "bananarana".toList 3 (by decide)⟩

/-- The cell values of the `compute_ped` dynamic-programming matrix:
`pedCell pre t i j` is `matrix[i][j]`, with row/column 0 initialized to the
index and the inner cells given by the unit-cost Levenshtein recurrence
(`repl` is free exactly when `prefix[i-1] == str[j-1]`). -/
def pedCell (pre t : List Char) : Nat → Nat → Nat
  | i, 0 => i
  | 0, j + 1 => j + 1
  | i + 1, j + 1 =>
    let repl := if pre[i]? = t[j]? then pedCell pre t i j else pedCell pre t i j + 1
    min (min repl (pedCell pre t (i + 1) j + 1)) (pedCell pre t i (j + 1) + 1)
termination_by i j => (i, j)

/-- The inner loop (`for j in range(1, m)`) of `compute_ped`, producing the
cells of the current row from column `j + 1` on: `left` is the value at
column `j` of the current row, the list holds the previous row from column
`j` on, and the character compared at column `jc` is `str[jc - 1]`. -/
def pedRowAux (c : Char) (t : List Char) : Nat → Nat → List Nat → List Nat
  | j, left, diag :: up :: rest =>
    let repl := if some c = t[j]? then diag else diag + 1
    let cell := min (min repl (left + 1)) (up + 1)
    cell :: pedRowAux c t (j + 1) cell (up :: rest)
  | _, _, _ => []

/-- The outer loop (`for i in range(1, n)`) of `compute_ped`: fold over the
remaining characters of `prefix`, carrying the row index and the previous
row; each new row starts with its row index (`matrix[i][0] = i`). -/
def pedLoop (t : List Char) : List Char → Nat → List Nat → List Nat
  | [], _, prev => prev
  | c :: cs, i, prev =>
    pedLoop t cs (i + 1) ((i + 1) :: pedRowAux c t 0 (i + 1) prev)

/-- Python `min` over a list; in `compute_ped` the argument is never empty
(the matrix always has at least one column), otherwise Python would
raise. -/
def listMin : List Nat → Nat
  | [] => 0
  | x :: xs => xs.foldl min x

/-- `compute_ped(prefix, str, delta)`: build the
`(|prefix|+1) × min(|prefix|+delta+1, |str|+1)` matrix row by row exactly as
the Python loops do and return the minimum of the last row.  `delta` is the
nonnegative distance bound of §4.5. -/
def compute_ped (pre t : String) (delta : Nat) : Nat :=
  let p := pre.toList
  let s := t.toList
  let m := min (p.length + delta + 1) (s.length + 1)
  listMin (pedLoop s p 0 (List.range m))

theorem pedRowAux_spec (p t : List Char) (i : Nat) (c : Char)
    (hc : p[i]? = some c) :
    ∀ (len j : Nat),
      pedRowAux c t j (pedCell p t (i + 1) j)
          ((List.range' j (len + 1)).map (pedCell p t i)) =
        (List.range' (j + 1) len).map (pedCell p t (i + 1)) := by
  intro len
  induction len with
  | zero =>
    intro j
    simp [pedRowAux, List.range']
  | succ len ih =>
    intro j
    rw [List.range'_succ, List.range'_succ]
    simp only [List.map_cons]
    rw [pedRowAux]
    have hcell :
        min (min (if some c = t[j]? then pedCell p t i j else pedCell p t i j + 1)
              (pedCell p t (i + 1) j + 1))
            (pedCell p t i (j + 1) + 1) =
          pedCell p t (i + 1) (j + 1) := by
      rw [pedCell]
      rw [hc]
    rw [hcell]
    have ih2 := ih (j + 1)
    rw [List.range'_succ] at ih2
    simp only [List.map_cons] at ih2
    rw [ih2, ← List.map_cons, ← List.range'_succ]

theorem pedLoop_spec (p t : List Char) (m : Nat) (hm : 1 ≤ m) :
    ∀ (cs : List Char) (i : Nat), List.drop i p = cs →
      pedLoop t cs i ((List.range' 0 m).map (pedCell p t i)) =
        (List.range' 0 m).map (pedCell p t (i + cs.length)) := by
  intro cs
  induction cs with
  | nil => intro i _; simp [pedLoop]
  | cons c cs' ih =>
    intro i hdrop
    have hc : p[i]? = some c := by
      have := congrArg (fun l => l[0]?) hdrop
      simpa using this
    have hdrop' : List.drop (i + 1) p = cs' := by
      have := congrArg (List.drop 1) hdrop
      simpa [List.drop_drop] using this
    rw [pedLoop]
    have hrow : (i + 1) :: pedRowAux c t 0 (i + 1)
          ((List.range' 0 m).map (pedCell p t i)) =
        (List.range' 0 m).map (pedCell p t (i + 1)) := by
      obtain ⟨m', rfl⟩ : ∃ m', m = m' + 1 := ⟨m - 1, by omega⟩
      conv_rhs => rw [List.range'_succ, List.map_cons]
      have h0 : pedCell p t (i + 1) 0 = i + 1 := by rw [pedCell]
      have hspec := pedRowAux_spec p t i c hc m' 0
      rw [h0] at hspec
      rw [h0, hspec]
    rw [hrow, ih (i + 1) hdrop']
    have harith : i + 1 + cs'.length = i + (c :: cs').length := by
      rw [List.length_cons]; omega
    rw [harith]

theorem pedCell_zero_row (p t : List Char) (j : Nat) : pedCell p t 0 j = j := by
  cases j with
  | zero => rw [pedCell]
  | succ j => rw [pedCell]

theorem compute_ped_matrix (pre t : String) (delta : Nat) :
    compute_ped pre t delta =
      listMin ((List.range (min (pre.toList.length + delta + 1)
          (t.toList.length + 1))).map
        (pedCell pre.toList t.toList pre.toList.length)) := by
  show listMin (pedLoop t.toList pre.toList 0
      (List.range (min (pre.toList.length + delta + 1)
        (t.toList.length + 1)))) = _
  rw [List.range_eq_range']
  have h0 : (List.range' 0 (min (pre.toList.length + delta + 1)
        (t.toList.length + 1))).map (pedCell pre.toList t.toList 0) =
      List.range' 0 (min (pre.toList.length + delta + 1)
        (t.toList.length + 1)) :=
    calc (List.range' 0 (min (pre.toList.length + delta + 1)
            (t.toList.length + 1))).map (pedCell pre.toList t.toList 0) =
          (List.range' 0 (min (pre.toList.length + delta + 1)
            (t.toList.length + 1))).map id :=
        List.map_congr_left (fun j _ => pedCell_zero_row _ _ j)
      _ = _ := List.map_id _
  conv_lhs => rw [← h0]
  rw [pedLoop_spec pre.toList t.toList
    (min (pre.toList.length + delta + 1) (t.toList.length + 1))
    (by omega) pre.toList 0 (by simp)]
  simp [List.range_eq_range']

/-- C5: `compute_ped(prefix, text, delta)` builds a
`(|prefix|+1) × min(|prefix|+delta+1, |text|+1)` unit-cost edit-distance
matrix and returns the minimum value of its last row; in particular
`compute_ped("foo","foo",0) = 0`, `compute_ped("foot","foo",0) = 1` and
`compute_ped("uniwer","university",6) = 1`. -/
theorem c5_compute_ped :
    (∀ (pre t : String) (delta : Nat),
        compute_ped pre t delta =
          listMin ((List.range (min (pre.toList.length + delta + 1)
              (t.toList.length + 1))).map
            (pedCell pre.toList t.toList pre.toList.length))) ∧
      compute_ped "foo" "foo" 0 = 0 ∧
      compute_ped "foot" "foo" 0 = 1 ∧
      compute_ped "uniwer" "university" 6 = 1 :=
  ⟨compute_ped_matrix, by decide, by decide, by decide⟩

/-- The cells of the `levenshtein` matrix (match 0, mismatch 1, gap
penalty 1): row/column 0 hold the index, and an inner cell is
`min(matrix[x-1,y] + 1, matrix[x-1,y-1] + cost, matrix[x,y-1] + 1)`.
The numpy matrix holds floats; its values are modelled in `ℚ`. -/
def levCell (a b : List Char) : Nat → Nat → ℚ
  | x, 0 => (x : ℚ)
  | 0, y + 1 => (y : ℚ) + 1
  | x + 1, y + 1 =>
    if a[x]? = b[y]? then
      min (min (levCell a b x (y + 1) + 1) (levCell a b x y + 0))
        (levCell a b (x + 1) y + 1)
    else
      min (min (levCell a b x (y + 1) + 1) (levCell a b x y + 1))
        (levCell a b (x + 1) y + 1)
termination_by x y => (x, y)

/-- The inner loop (`for y in range(1, size_y)`) of `levenshtein`: `left`
is the current row's previous cell, the list holds the previous row from
column `j` on, and `seq2[y - 1]` is `t[j]?` at the cell of column `j + 1`. -/
def levRowAux (c : Char) (t : List Char) : Nat → ℚ → List ℚ → List ℚ
  | j, left, diag :: up :: rest =>
    let cell := if some c = t[j]? then min (min (up + 1) (diag + 0)) (left + 1)
                else min (min (up + 1) (diag + 1)) (left + 1)
    cell :: levRowAux c t (j + 1) cell (up :: rest)
  | _, _, _ => []

/-- The outer loop (`for x in range(1, size_x)`) of `levenshtein`; each row
starts with its row index (`matrix[x, 0] = x`). -/
def levLoop (t : List Char) : List Char → Nat → List ℚ → List ℚ
  | [], _, prev => prev
  | c :: cs, x, prev =>
    levLoop t cs (x + 1) (((x : ℚ) + 1) :: levRowAux c t 0 ((x : ℚ) + 1) prev)

/-- `levenshtein(seq1, seq2)`: fill the
`(len(seq1)+1) × (len(seq2)+1)` matrix row by row and return the
bottom-right cell. -/
def levenshtein (s1 s2 : String) : ℚ :=
  let a := s1.toList
  let b := s2.toList
  let row0 := (List.range (b.length + 1)).map (Nat.cast : Nat → ℚ)
  (levLoop b a 0 row0).getLastD 0

theorem levRowAux_spec (a b : List Char) (x : Nat) (c : Char)
    (hc : a[x]? = some c) :
    ∀ (len j : Nat),
      levRowAux c b j (levCell a b (x + 1) j)
          ((List.range' j (len + 1)).map (levCell a b x)) =
        (List.range' (j + 1) len).map (levCell a b (x + 1)) := by
  intro len
  induction len with
  | zero =>
    intro j
    simp [levRowAux, List.range']
  | succ len ih =>
    intro j
    rw [List.range'_succ, List.range'_succ]
    simp only [List.map_cons]
    rw [levRowAux]
    have hcell :
        (if some c = b[j]? then
            min (min (levCell a b x (j + 1) + 1) (levCell a b x j + 0))
              (levCell a b (x + 1) j + 1)
          else
            min (min (levCell a b x (j + 1) + 1) (levCell a b x j + 1))
              (levCell a b (x + 1) j + 1)) =
          levCell a b (x + 1) (j + 1) := by
      rw [levCell, hc]
    rw [hcell]
    have ih2 := ih (j + 1)
    rw [List.range'_succ] at ih2
    simp only [List.map_cons] at ih2
    rw [ih2, ← List.map_cons, ← List.range'_succ]

theorem levLoop_spec (a b : List Char) (m : Nat) (hm : 1 ≤ m) :
    ∀ (cs : List Char) (x : Nat), List.drop x a = cs →
      levLoop b cs x ((List.range' 0 m).map (levCell a b x)) =
        (List.range' 0 m).map (levCell a b (x + cs.length)) := by
  intro cs
  induction cs with
  | nil => intro x _; simp [levLoop]
  | cons c cs' ih =>
    intro x hdrop
    have hc : a[x]? = some c := by
      have := congrArg (fun l => l[0]?) hdrop
      simpa using this
    have hdrop' : List.drop (x + 1) a = cs' := by
      have := congrArg (List.drop 1) hdrop
      simpa [List.drop_drop] using this
    rw [levLoop]
    have hrow : ((x : ℚ) + 1) :: levRowAux c b 0 ((x : ℚ) + 1)
          ((List.range' 0 m).map (levCell a b x)) =
        (List.range' 0 m).map (levCell a b (x + 1)) := by
      obtain ⟨m', rfl⟩ : ∃ m', m = m' + 1 := ⟨m - 1, by omega⟩
      conv_rhs => rw [List.range'_succ, List.map_cons]
      have h0 : levCell a b (x + 1) 0 = (x : ℚ) + 1 := by
        rw [levCell]; push_cast; ring
      have hspec := levRowAux_spec a b x c hc m' 0
      rw [h0] at hspec
      rw [h0, hspec]
    rw [hrow, ih (x + 1) hdrop']
    have harith : x + 1 + cs'.length = x + (c :: cs').length := by
      rw [List.length_cons]; omega
    rw [harith]

theorem levCell_zero_row (a b : List Char) (j : Nat) :
    levCell a b 0 j = (j : ℚ) := by
  cases j with
  | zero => rw [levCell]
  | succ j => rw [levCell]; push_cast; ring

theorem levenshtein_eq_cell (s1 s2 : String) :
    levenshtein s1 s2 =
      levCell s1.toList s2.toList s1.toList.length s2.toList.length := by
  show ((levLoop s2.toList s1.toList 0
      ((List.range (s2.toList.length + 1)).map
        (Nat.cast : Nat → ℚ))).getLastD 0) = _
  rw [List.range_eq_range']
  have h0 : (List.range' 0 (s2.toList.length + 1)).map (Nat.cast : Nat → ℚ) =
      (List.range' 0 (s2.toList.length + 1)).map
        (levCell s1.toList s2.toList 0) :=
    List.map_congr_left (fun j _ => (levCell_zero_row s1.toList s2.toList j).symm)
  rw [h0, levLoop_spec s1.toList s2.toList (s2.toList.length + 1) (by omega)
    s1.toList 0 (by simp)]
  rw [List.range'_concat, List.map_append, List.map_cons, List.map_nil,
    List.getLastD_concat]
  simp

theorem levCell_symm_aux (a b : List Char) :
    ∀ (n x y : Nat), x + y ≤ n → levCell a b x y = levCell b a y x := by
  intro n
  induction n with
  | zero =>
    intro x y h
    obtain ⟨rfl, rfl⟩ : x = 0 ∧ y = 0 := by omega
    rw [levCell, levCell]
  | succ n ih =>
    intro x y h
    match x, y with
    | 0, 0 => rw [levCell, levCell]
    | 0, y + 1 =>
      rw [levCell, levCell]; push_cast; ring
    | x + 1, 0 =>
      rw [levCell, levCell]; push_cast; ring
    | x + 1, y + 1 =>
      have e1 := ih x (y + 1) (by omega)
      have e2 := ih (x + 1) y (by omega)
      have e3 := ih x y (by omega)
      rw [levCell]
      conv_rhs => rw [levCell]
      rw [← e1, ← e2, ← e3]
      by_cases hc : a[x]? = b[y]?
      · rw [if_pos hc, if_pos hc.symm]
        rw [min_comm (levCell a b x (y + 1) + 1) (levCell a b x y + 0),
          min_assoc,
          min_comm (levCell a b x (y + 1) + 1) (levCell a b (x + 1) y + 1),
          ← min_assoc,
          min_comm (levCell a b x y + 0) (levCell a b (x + 1) y + 1)]
      · rw [if_neg hc, if_neg (fun hh => hc hh.symm)]
        rw [min_comm (levCell a b x (y + 1) + 1) (levCell a b x y + 1),
          min_assoc,
          min_comm (levCell a b x (y + 1) + 1) (levCell a b (x + 1) y + 1),
          ← min_assoc,
          min_comm (levCell a b x y + 1) (levCell a b (x + 1) y + 1)]

/-- C8: `levenshtein` is symmetric, `levenshtein(a, b) = levenshtein(b, a)`
for all strings `a` and `b`; in particular
`levenshtein("perf","perv") = 1 = levenshtein("perv","perf")`. -/
theorem c8_levenshtein_symm :
    (∀ a b : String, levenshtein a b = levenshtein b a) ∧
      levenshtein "perf" "perv" = 1 ∧ levenshtein "perv" "perf" = 1 := by
  refine ⟨fun a b => ?_,
    by norm_num [levenshtein, levLoop, levRowAux, min_def, List.range_succ]; decide,
    by norm_num [levenshtein, levLoop, levRowAux, min_def, List.range_succ]; decide⟩
  rw [levenshtein_eq_cell a b, levenshtein_eq_cell b a]
  exact levCell_symm_aux a.toList b.toList
    (a.toList.length + b.toList.length) _ _ le_rfl

/-- The inner loop of `needleman_wunsch_scoring` (match `-1`, mismatch `1`,
gap penalty `1`, gap opening `3`): after filling a cell, the Python code
runs `if (matrix[x,y] == matrix[x-1,y] + gap_penalty or matrix[x,y-1] +
gap_penalty) and not gap_opened`, where the second disjunct is the Python
truthiness of the number `matrix[x,y-1] + gap_penalty`, i.e. that it is
nonzero; on that condition it adds the opening penalty and sets the flag,
otherwise it clears the flag. -/
def nwRowAux (c : Char) (t : List Char) : Nat → ℚ → Bool → List ℚ → List ℚ × Bool
  | j, left, flag, diag :: up :: rest =>
    let base := if some c = t[j]? then min (min (up + 1) (diag + -1)) (left + 1)
                else min (min (up + 1) (diag + 1)) (left + 1)
    if (base = up + 1 ∨ left + 1 ≠ 0) ∧ ¬flag then
      let next := nwRowAux c t (j + 1) (base + 3) true (up :: rest)
      ((base + 3) :: next.1, next.2)
    else
      let next := nwRowAux c t (j + 1) base false (up :: rest)
      (base :: next.1, next.2)
  | _, _, flag, _ => ([], flag)

/-- Modelled from the spec: the variant of the `needleman_wunsch_scoring`
inner loop described by the claim, in which the gap-opening penalty is
added unconditionally whenever `gap_opened` is false (the boolean test is
taken to be true at every cell). -/
def nwUncondRowAux (c : Char) (t : List Char) :
    Nat → ℚ → Bool → List ℚ → List ℚ × Bool
  | j, left, flag, diag :: up :: rest =>
    let base := if some c = t[j]? then min (min (up + 1) (diag + -1)) (left + 1)
                else min (min (up + 1) (diag + 1)) (left + 1)
    if ¬flag then
      let next := nwUncondRowAux c t (j + 1) (base + 3) true (up :: rest)
      ((base + 3) :: next.1, next.2)
    else
      let next := nwUncondRowAux c t (j + 1) base false (up :: rest)
      (base :: next.1, next.2)
  | _, _, flag, _ => ([], flag)

/-- The inner loop of `affine_gap_scoring` (match `-3`, mismatch `1`, gap
penalty `0.5`, gap opening `3`): here the truthiness test guards an outer
`if`, inside which the penalty is added only while `not gap_opened`; the
flag is cleared only by the outer `else`, so it stays set when the
condition holds and the gap is already open. -/
def afRowAux (c : Char) (t : List Char) : Nat → ℚ → Bool → List ℚ → List ℚ × Bool
  | j, left, flag, diag :: up :: rest =>
    let base := if some c = t[j]? then
        min (min (up + 0.5) (diag + -3)) (left + 0.5)
      else min (min (up + 0.5) (diag + 1)) (left + 0.5)
    if base = up + 0.5 ∨ left + 0.5 ≠ 0 then
      if ¬flag then
        let next := afRowAux c t (j + 1) (base + 3) true (up :: rest)
        ((base + 3) :: next.1, next.2)
      else
        let next := afRowAux c t (j + 1) base true (up :: rest)
        (base :: next.1, next.2)
    else
      let next := afRowAux c t (j + 1) base false (up :: rest)
      (base :: next.1, next.2)
  | _, _, flag, _ => ([], flag)

/-- Modelled from the spec: the variant of the `affine_gap_scoring` inner
loop in which the truthiness test is taken to be true at every cell, so
the opening penalty is applied exactly when `gap_opened` is false. -/
def afUncondRowAux (c : Char) (t : List Char) :
    Nat → ℚ → Bool → List ℚ → List ℚ × Bool
  | j, left, flag, diag :: up :: rest =>
    let base := if some c = t[j]? then
        min (min (up + 0.5) (diag + -3)) (left + 0.5)
      else min (min (up + 0.5) (diag + 1)) (left + 0.5)
    if ¬flag then
      let next := afUncondRowAux c t (j + 1) (base + 3) true (up :: rest)
      ((base + 3) :: next.1, next.2)
    else
      let next := afUncondRowAux c t (j + 1) base true (up :: rest)
      (base :: next.1, next.2)
  | _, _, flag, _ => ([], flag)

/-- The outer loop shared by the gap scorers: iterate over the characters
of `seq1`, threading the `gap_opened` flag across rows as the Python code
does; each row starts with its row index. -/
def gapLoop (rowf : Char → List Char → Nat → ℚ → Bool → List ℚ → List ℚ × Bool)
    (t : List Char) : List Char → Nat → Bool → List ℚ → List ℚ
  | [], _, _, prev => prev
  | c :: cs, x, flag, prev =>
    let row := rowf c t 0 ((x : ℚ) + 1) flag prev
    gapLoop rowf t cs (x + 1) row.2 (((x : ℚ) + 1) :: row.1)

/-- The shared shell of the gap scorers: row 0 holds the column indices,
`gap_opened` starts false, and the result is the bottom-right cell. -/
def gapScore (rowf : Char → List Char → Nat → ℚ → Bool → List ℚ → List ℚ × Bool)
    (s1 s2 : String) : ℚ :=
  let a := s1.toList
  let b := s2.toList
  let row0 := (List.range (b.length + 1)).map (Nat.cast : Nat → ℚ)
  (gapLoop rowf b a 0 false row0).getLastD 0

/-- `needleman_wunsch_scoring(seq1, seq2)` from qgram_index.py. -/
def needleman_wunsch_scoring (s1 s2 : String) : ℚ := gapScore nwRowAux s1 s2

/-- `affine_gap_scoring(seq1, seq2)` from qgram_index.py. -/
def affine_gap_scoring (s1 s2 : String) : ℚ := gapScore afRowAux s1 s2

/-- Modelled from the spec: `needleman_wunsch_scoring` with the
gap-opening penalty added unconditionally whenever `gap_opened` is false. -/
def needleman_wunsch_uncond (s1 s2 : String) : ℚ := gapScore nwUncondRowAux s1 s2

/-- Modelled from the spec: `affine_gap_scoring` with the gap-opening
penalty added unconditionally whenever `gap_opened` is false. -/
def affine_gap_uncond (s1 s2 : String) : ℚ := gapScore afUncondRowAux s1 s2

/-- C9 counterexample: the gap-opening test is not true at every cell, and
the scorers differ from the always-penalize variants.  On
`("aaa", "aab")` the Needleman-Wunsch scorer returns `0` while the
unconditional variant returns `3` (at the final cell the left neighbor is
`-1`, so `matrix[x,y-1] + gap_penalty` is `0`, which is falsy); on
`("aab", "bcba")` the affine scorer returns `3` while its unconditional
variant returns `0`. -/
theorem c9_counterexample :
    needleman_wunsch_scoring "aaa" "aab" ≠ needleman_wunsch_uncond "aaa" "aab" ∧
      affine_gap_scoring "aab" "bcba" ≠ affine_gap_uncond "aab" "bcba" := by
  constructor
  · have h1 : needleman_wunsch_scoring "aaa" "aab" = 0 := by
      norm_num [needleman_wunsch_scoring, gapScore, gapLoop, nwRowAux, min_def,
        List.range_succ, eq_false (by decide : ¬ ('a' = 'b'))]
    have h2 : needleman_wunsch_uncond "aaa" "aab" = 3 := by
      norm_num [needleman_wunsch_uncond, gapScore, gapLoop, nwUncondRowAux,
        min_def, List.range_succ, eq_false (by decide : ¬ ('a' = 'b'))]
    rw [h1, h2]
    norm_num
  · have h1 : affine_gap_scoring "aab" "bcba" = 3 := by
      norm_num [affine_gap_scoring, gapScore, gapLoop, afRowAux, min_def,
        List.range_succ, eq_false (by decide : ¬ ('a' = 'b')),
        eq_false (by decide : ¬ ('a' = 'c')),
        eq_false (by decide : ¬ ('b' = 'c')),
        eq_false (by decide : ¬ ('b' = 'a'))]
    have h2 : affine_gap_uncond "aab" "bcba" = 0 := by
      norm_num [affine_gap_uncond, gapScore, gapLoop, afUncondRowAux, min_def,
        List.range_succ, eq_false (by decide : ¬ ('a' = 'b')),
        eq_false (by decide : ¬ ('a' = 'c')),
        eq_false (by decide : ¬ ('b' = 'c')),
        eq_false (by decide : ¬ ('b' = 'a'))]
    rw [h1, h2]
    norm_num

theorem nwRowAux_uncond_single (c : Char) (t : List Char) (j : Nat) (l : ℚ)
    (flag : Bool) (d u : ℚ) (h : l + 1 ≠ 0) :
    nwRowAux c t j l flag [d, u] = nwUncondRowAux c t j l flag [d, u] := by
  cases flag <;> simp [nwRowAux, nwUncondRowAux, h]

theorem afRowAux_uncond_single (c : Char) (t : List Char) (j : Nat) (l : ℚ)
    (flag : Bool) (d u : ℚ) (h : l + 0.5 ≠ 0) :
    afRowAux c t j l flag [d, u] = afUncondRowAux c t j l flag [d, u] := by
  cases flag <;> simp [afRowAux, afUncondRowAux, h]

theorem nwRowAux_length (c : Char) (t : List Char) :
    ∀ (prev : List ℚ) (j : Nat) (l : ℚ) (flag : Bool),
      (nwRowAux c t j l flag prev).1.length = prev.length - 1 := by
  intro prev
  induction prev with
  | nil => intro j l flag; simp [nwRowAux]
  | cons d rest ih =>
    intro j l flag
    cases rest with
    | nil => simp [nwRowAux]
    | cons u rest' =>
      simp only [nwRowAux]
      repeat' split
      all_goals simp only [List.length_cons, ih]
      all_goals omega

theorem afRowAux_length (c : Char) (t : List Char) :
    ∀ (prev : List ℚ) (j : Nat) (l : ℚ) (flag : Bool),
      (afRowAux c t j l flag prev).1.length = prev.length - 1 := by
  intro prev
  induction prev with
  | nil => intro j l flag; simp [afRowAux]
  | cons d rest ih =>
    intro j l flag
    cases rest with
    | nil => simp [afRowAux]
    | cons u rest' =>
      simp only [afRowAux]
      repeat' split
      all_goals simp only [List.length_cons, ih]
      all_goals omega

theorem gapLoop_nw_uncond (t : List Char) (ht : t.length ≤ 1) :
    ∀ (cs : List Char) (x : Nat) (flag : Bool) (prev : List ℚ),
      prev.length = t.length + 1 →
      gapLoop nwRowAux t cs x flag prev =
        gapLoop nwUncondRowAux t cs x flag prev := by
  intro cs
  induction cs with
  | nil => intro x flag prev _; rfl
  | cons c cs ih =>
    intro x flag prev hlen
    have hrow : nwRowAux c t 0 ((x : ℚ) + 1) flag prev =
        nwUncondRowAux c t 0 ((x : ℚ) + 1) flag prev := by
      rcases Nat.le_one_iff_eq_zero_or_eq_one.mp ht with h0 | h1
      · obtain ⟨d, rfl⟩ := List.length_eq_one.mp (by omega : prev.length = 1)
        simp [nwRowAux, nwUncondRowAux]
      · obtain ⟨d, u, rfl⟩ :=
          List.length_eq_two.mp (by omega : prev.length = 2)
        exact nwRowAux_uncond_single c t 0 ((x : ℚ) + 1) flag d u
          (by positivity)
    simp only [gapLoop]
    rw [hrow]
    apply ih
    have := nwRowAux_length c t prev 0 ((x : ℚ) + 1) flag
    rw [hrow] at this
    simp only [List.length_cons, this]
    omega

theorem gapLoop_af_uncond (t : List Char) (ht : t.length ≤ 1) :
    ∀ (cs : List Char) (x : Nat) (flag : Bool) (prev : List ℚ),
      prev.length = t.length + 1 →
      gapLoop afRowAux t cs x flag prev =
        gapLoop afUncondRowAux t cs x flag prev := by
  intro cs
  induction cs with
  | nil => intro x flag prev _; rfl
  | cons c cs ih =>
    intro x flag prev hlen
    have hrow : afRowAux c t 0 ((x : ℚ) + 1) flag prev =
        afUncondRowAux c t 0 ((x : ℚ) + 1) flag prev := by
      rcases Nat.le_one_iff_eq_zero_or_eq_one.mp ht with h0 | h1
      · obtain ⟨d, rfl⟩ := List.length_eq_one.mp (by omega : prev.length = 1)
        simp [afRowAux, afUncondRowAux]
      · obtain ⟨d, u, rfl⟩ :=
          List.length_eq_two.mp (by omega : prev.length = 2)
        exact afRowAux_uncond_single c t 0 ((x : ℚ) + 1) flag d u
          (by positivity)
    simp only [gapLoop]
    rw [hrow]
    apply ih
    have := afRowAux_length c t prev 0 ((x : ℚ) + 1) flag
    rw [hrow] at this
    simp only [List.length_cons, this]
    omega

/-- C9 (amended): the gap-opening boolean test is not true at every cell,
and `needleman_wunsch_scoring` (resp. `affine_gap_scoring`) is not equal in
general to the variant that adds the opening penalty unconditionally
whenever `gap_opened` is false — see the counterexample.  The test is true
at every cell whose current-row left neighbor plus the gap penalty is
nonzero; in particular, whenever `seq2` has length at most 1 (so every
inner cell's left neighbor is the column-0 value `x`), both scorers agree
with their unconditional variants. -/
theorem c9_amended (s1 s2 : String) (h : s2.toList.length ≤ 1) :
    needleman_wunsch_scoring s1 s2 = needleman_wunsch_uncond s1 s2 ∧
      affine_gap_scoring s1 s2 = affine_gap_uncond s1 s2 := by
  constructor
  · simp only [needleman_wunsch_scoring, needleman_wunsch_uncond, gapScore]
    rw [gapLoop_nw_uncond s2.toList h s1.toList 0 false _ (by simp)]
  · simp only [affine_gap_scoring, affine_gap_uncond, gapScore]
    rw [gapLoop_af_uncond s2.toList h s1.toList 0 false _ (by simp)]

theorem c9_amended_witness :
    "a".toList.length ≤ 1 ∧
      (needleman_wunsch_scoring "ab" "a" = needleman_wunsch_uncond "ab" "a" ∧
        affine_gap_scoring "ab" "a" = affine_gap_uncond "ab" "a") :=
  ⟨by decide, c9_amended "ab" "a" (by decide)⟩

/-- A scored match as returned by `find_matches`:
`(record, (latitude, longitude), type, score)`. -/
abbrev ScoredMatch :=
  String × (Option PyVal × Option PyVal) × Option RECORD_TYPE × ℚ

/-- The state of a `PointOfInterestQgramIndex`.  The inverted lists and the
vocab are Python dicts with dense insertion-ordered keys, modelled as an
association list and a record-id-indexed list; coordinates are stored raw
(strings from the CSV, arbitrary values from `build_from_lists`).  The
`GeofenceHelper` collaborators (external, not among the sources) are
modelled as abstract `is_in_any_geofence` predicates keyed by channel id;
channel ids are integers, `None` being `none`. -/
structure PoiIndex where
  q : Nat
  inverted_lists : List (List Char × List Nat)
  vocab : List String
  latitude : List (Option PyVal)
  longitude : List (Option PyVal)
  types : List (Option RECORD_TYPE)
  scoring_method : SCORING_TYPE
  use_geofences : Bool
  channel_to_geofence_helper : List (Int × (Option PyVal → Option PyVal → Bool))

/-- A fresh index as `__init__` creates it: empty structures, default
scoring method `AFFINE_GAPS`, no geofences. -/
def emptyIndex (q : Nat) : PoiIndex :=
  { q := q, inverted_lists := [], vocab := [], latitude := [], longitude := [],
    types := [], scoring_method := SCORING_TYPE.AFFINE_GAPS,
    use_geofences := false, channel_to_geofence_helper := [] }

/-- The normalization `re.sub("[ \W+\n]", "", record).lower()`: drop every
non-word character and lowercase (ASCII approximation of the Python
Unicode word class; no claim depends on the exact class). -/
def normalize (s : String) : String :=
  String.mk ((s.toList.filter (fun c => c.isAlphanum || c = '_')).map
    Char.toLower)

/-- Append a record id to the posting list of one q-gram, creating the
list when the q-gram is new (`if qgram not in self.inverted_lists`);
Python dicts preserve insertion order. -/
def addPosting (inv : List (List Char × List Nat)) (g : List Char)
    (rid : Nat) : List (List Char × List Nat) :=
  if (inv.lookup g).isSome then
    inv.map (fun p => if p.1 = g then (p.1, p.2 ++ [rid]) else p)
  else inv ++ [(g, [rid])]

/-- `str.strip()` on a Python value: defined on strings only (attribute
access on any other value raises, modelled as `none`). -/
def pyStrip : PyVal → Option String
  | PyVal.vstr s => some s.trim
  | _ => none

/-- One row of `build_from_lists`: the record name comes from `row[0]`;
the longitude is read from `row[2]` under the guard `len(row) > 1` (the
faulty guard of the source: a row of length exactly 2 reaches `row[2]`
and raises IndexError, modelled as `none`); the latitude is read from
`row[1]` under `len(row) > 2`; the type from `row[3]` under
`len(row) > 3`, kept when it equals the GYM or POKESTOP tag and UNKNOWN
otherwise. -/
def build_from_lists_row (idx : PoiIndex) (rid : Nat) (row : List PyVal) :
    Option PoiIndex := do
  let v0 ← row[0]?
  let record ← pyStrip v0
  let lon ← if row.length > 1 then do
      let v ← row[2]?
      pure (some v)
    else pure none
  let lat ← if row.length > 2 then do
      let v ← row[1]?
      pure (some v)
    else pure none
  let ty : Option RECORD_TYPE :=
    if row.length > 3 then
      match row[3]? with
      | some v =>
        if v = PyVal.vtype RECORD_TYPE.GYM then some RECORD_TYPE.GYM
        else if v = PyVal.vtype RECORD_TYPE.POKESTOP then
          some RECORD_TYPE.POKESTOP
        else some RECORD_TYPE.UNKNOWN
      | none => some RECORD_TYPE.UNKNOWN
    else some RECORD_TYPE.UNKNOWN
  let word := normalize record
  let qgrams := get_qgrams word.toList idx.q
  pure { idx with
    vocab := idx.vocab ++ [record]
    longitude := idx.longitude ++ [lon]
    latitude := idx.latitude ++ [lat]
    types := idx.types ++ [ty]
    inverted_lists :=
      qgrams.foldl (fun inv g => addPosting inv g rid) idx.inverted_lists }

/-- The row loop of `build_from_lists`, record ids assigned from `rid`. -/
def build_from_lists_go : PoiIndex → Nat → List (List PyVal) →
    Option PoiIndex
  | idx, _, [] => some idx
  | idx, rid, row :: rows => do
    let idx2 ← build_from_lists_row idx rid row
    build_from_lists_go idx2 (rid + 1) rows

/-- `build_from_lists(input)`: process all rows in order with record ids
from 0; `none` when some row raises. -/
def build_from_lists (idx : PoiIndex) (input : List (List PyVal)) :
    Option PoiIndex :=
  build_from_lists_go idx 0 input

/-- One row of `build_from_file` (the CSV reader yields lists of strings,
header already skipped): latitude from `row[1]` and longitude from
`row[2]` when present, else `None`; the category from `row[3]` maps
`"Gym"`/`"Pokestop"` to GYM/POKESTOP and anything else to UNKNOWN, but a
row without a fourth column stores `None` (not UNKNOWN) as the type; an
empty row raises on `row[0]`. -/
def build_from_file_row (idx : PoiIndex) (rid : Nat) (row : List String) :
    Option PoiIndex := do
  let r0 ← row[0]?
  let record := r0.trim
  let lat := (row[1]?).map (fun s => PyVal.vstr s.trim)
  let lon := (row[2]?).map (fun s => PyVal.vstr s.trim)
  let ty : Option RECORD_TYPE := (row[3]?).map (fun s =>
    if s.trim = "Gym" then RECORD_TYPE.GYM
    else if s.trim = "Pokestop" then RECORD_TYPE.POKESTOP
    else RECORD_TYPE.UNKNOWN)
  let word := normalize record
  let qgrams := get_qgrams word.toList idx.q
  pure { idx with
    vocab := idx.vocab ++ [record]
    latitude := idx.latitude ++ [lat]
    longitude := idx.longitude ++ [lon]
    types := idx.types ++ [ty]
    inverted_lists :=
      qgrams.foldl (fun inv g => addPosting inv g rid) idx.inverted_lists }

/-- The row loop of `build_from_file`. -/
def build_from_file_go : PoiIndex → Nat → List (List String) →
    Option PoiIndex
  | idx, _, [] => some idx
  | idx, rid, row :: rows => do
    let idx2 ← build_from_file_row idx rid row
    build_from_file_go idx2 (rid + 1) rows

/-- `build_from_file(file_name)` applied to the parsed CSV rows (the file
reading and CSV splitting are external I/O). -/
def build_from_file (idx : PoiIndex) (rows : List (List String)) :
    Option PoiIndex :=
  build_from_file_go idx 0 rows

/-- C2 evaluated at a failing input: `build_from_lists` on the single
two-column row `("name", 1)` raises IndexError — the guard checks
`len(row) > 1` but reads `row[2]` — modelled as `none`, so the build does
fail; and `build_from_file` on a two-column row succeeds but stores
`None` (not UNKNOWN) as the record type. -/
theorem c2_short_row_behavior :
    build_from_lists (emptyIndex 3) [[PyVal.vstr "name", PyVal.vnum 1]] =
        none ∧
      (build_from_file (emptyIndex 3) [["name", "1.0"]]).map PoiIndex.types =
        some [none] := by
  constructor
  · rfl
  · rfl

/-- `get_posting_list(qgram)`: `self.inverted_lists.get(qgram, [])`. -/
def get_posting_list (idx : PoiIndex) (g : List Char) : List Nat :=
  (idx.inverted_lists.lookup g).getD []

/-- `get_score(query, word)`: dispatch on the configured scoring method
(the `raise NotImplementedError` branch is unreachable over the enum). -/
def get_score (idx : PoiIndex) (query word : String) : ℚ :=
  match idx.scoring_method with
  | SCORING_TYPE.LEVENSHTEIN => levenshtein query word
  | SCORING_TYPE.NEEDLEMAN_WUNSCH => needleman_wunsch_scoring query word
  | SCORING_TYPE.AFFINE_GAPS => affine_gap_scoring query word

/-- Python truthiness of the optional channel id: `None` and `0` are
falsy. -/
def chanTruthy : Option Int → Bool
  | none => false
  | some c => c != 0

/-- The geofence branch condition of `find_matches`:
`self.use_geofences and channel_id and channel_id in
self.channel_to_geofence_helper`. -/
def geoApplies (idx : PoiIndex) (ch : Option Int) : Bool :=
  idx.use_geofences && chanTruthy ch &&
    (ch.bind (fun c => idx.channel_to_geofence_helper.lookup c)).isSome

/-- The geofence helper looked up for the channel; only consulted when
`geoApplies` holds (the default accepts everything). -/
def geoHelperOf (idx : PoiIndex) (ch : Option Int) :
    Option PyVal → Option PyVal → Bool :=
  (ch.bind (fun c => idx.channel_to_geofence_helper.lookup c)).getD
    (fun _ _ => true)

/-- The tuple appended for one surviving record id:
`(record, (latitude, longitude), type, ed)` with
`ed = get_score(query, word)` on the re-normalized stored word. -/
def candidateEntry (idx : PoiIndex) (query : String) (rid : Nat) :
    ScoredMatch :=
  let record := idx.vocab.getD rid ""
  let word := normalize record
  let ed := get_score idx query word
  (record, (idx.latitude.getD rid none, idx.longitude.getD rid none),
    idx.types.getD rid none, ed)

/-- The loop body of `find_matches` for a candidate that passed the count
threshold: score it and append it, subject to the geofence filter when
that applies. -/
def processEligible (idx : PoiIndex) (query : String) (ch : Option Int)
    (acc : List ScoredMatch) (rc : Nat × Nat) : List ScoredMatch :=
  let e := candidateEntry idx query rc.1
  if geoApplies idx ch then
    if geoHelperOf idx ch e.2.1.1 e.2.1.2 then acc ++ [e] else acc
  else acc ++ [e]

/-- The full loop body of `find_matches` for one merged candidate
`(record_id, count)`: `if count >= int(threshold)` score and append,
otherwise skip. -/
def processCandidate (idx : PoiIndex) (query : String) (ch : Option Int)
    (threshold : Nat) (acc : List ScoredMatch) (rc : Nat × Nat) :
    List ScoredMatch :=
  if threshold ≤ rc.2 then processEligible idx query ch acc rc else acc

/-- The merged candidates of a query: the posting lists of the query's
q-grams, merged. -/
def merged_candidates (idx : PoiIndex) (query : String) : List (Nat × Nat) :=
  merge ((get_qgrams query.toList idx.q).map (fun g => get_posting_list idx g))

/-- The `result_words` list built by `find_matches` when the q-gram
prefilter is enabled.  The Python threshold is
`int((len(query) + q - 1) / 4)`, a float truncation; over the naturals it
equals `(len(query) + q - 1) / 4` with `Nat` (floor) division, including
the degenerate case `len(query) + q = 0` where both are 0. -/
def find_matches_result_words (idx : PoiIndex) (query : String)
    (ch : Option Int) : List ScoredMatch :=
  (merged_candidates idx query).foldl
    (processCandidate idx query ch ((query.length + idx.q - 1) / 4)) []

/-- The sort key of `find_matches`: ascending score
(`sorted(..., key=lambda x: x[3])`).  Python's sort is stable, and a
stable sort under a total preorder is unique, so `mergeSort` models it
exactly. -/
def scoreLe (a b : ScoredMatch) : Bool := decide (a.2.2.2 ≤ b.2.2.2)

/-- `find_matches(query, delta, k=5, use_qindex=True, channel_id=None)`:
prefilter through the q-gram index (the non-prefiltered path produces no
candidates), sort the scored candidates ascending by score and return the
first `k`.  `delta` is accepted but never read. -/
def find_matches (idx : PoiIndex) (query : String) (delta : Int) (k : Nat)
    (use_qindex : Bool) (channel_id : Option Int) : List ScoredMatch :=
  let result_words :=
    if use_qindex then find_matches_result_words idx query channel_id else []
  (result_words.mergeSort scoreLe).take k

/-- C6: for every index, query, `k`, `use_qindex` flag and channel id,
`find_matches` returns the same result for any two `delta` values: the
`delta` parameter has no influence on the result (it is never read). -/
theorem c6_delta_unused (idx : PoiIndex) (query : String) (d1 d2 : Int)
    (k : Nat) (use_qindex : Bool) (ch : Option Int) :
    find_matches idx query d1 k use_qindex ch =
      find_matches idx query d2 k use_qindex ch := rfl

theorem foldl_processCandidate_filter (idx : PoiIndex) (query : String)
    (ch : Option Int) (thr : Nat) :
    ∀ (l : List (Nat × Nat)) (acc : List ScoredMatch),
      l.foldl (processCandidate idx query ch thr) acc =
        (l.filter (fun rc => decide (thr ≤ rc.2))).foldl
          (processEligible idx query ch) acc := by
  intro l
  induction l with
  | nil => intro acc; rfl
  | cons rc rest ih =>
    intro acc
    by_cases h : thr ≤ rc.2
    · simp only [List.foldl_cons, List.filter_cons]
      rw [if_pos (by simpa using h)]
      simp only [List.foldl_cons]
      rw [show processCandidate idx query ch thr acc rc =
        processEligible idx query ch acc rc from by
          simp [processCandidate, h]]
      exact ih _
    · simp only [List.foldl_cons, List.filter_cons]
      rw [if_neg (by simpa using h)]
      rw [show processCandidate idx query ch thr acc rc = acc from by
        simp [processCandidate, h]]
      exact ih _

theorem threshold_floor_iff (n q count : Nat) :
    ((n + q - 1) / 4 ≤ count) ↔
      ⌊(((n : ℚ) + (q : ℚ) - 1) / 4)⌋ ≤ (count : ℤ) := by
  rcases Nat.eq_zero_or_pos (n + q) with h0 | hpos
  · obtain ⟨hn, hq⟩ : n = 0 ∧ q = 0 := by omega
    subst hn; subst hq
    simp only [Nat.cast_zero]
    have hf : ⌊(((0 : ℚ) + (0 : ℚ) - 1) / 4)⌋ = -1 := by
      rw [Int.floor_eq_iff] <;> norm_num
    rw [hf]
    constructor
    · intro _; omega
    · intro _; omega
  · have hone : 1 ≤ n + q := hpos
    have hm : ((n : ℚ) + (q : ℚ) - 1) = ((n + q - 1 : ℕ) : ℚ) := by
      rw [Nat.cast_sub hone]
      push_cast
      ring
    rw [hm]
    have hfl : ⌊(((n + q - 1 : ℕ) : ℚ)) / 4⌋ = ((n + q - 1) / 4 : ℕ) := by
      rw [Int.floor_eq_iff]
      constructor
      · rw [le_div_iff₀ (by norm_num : (0 : ℚ) < 4)]
        exact_mod_cast Nat.div_mul_le_self (n + q - 1) 4
      · rw [div_lt_iff₀ (by norm_num : (0 : ℚ) < 4)]
        exact_mod_cast (by omega : n + q - 1 < ((n + q - 1) / 4 + 1) * 4)
    rw [hfl]
    exact_mod_cast Iff.rfl

/-- C4: with the prefilter enabled, a merged candidate is scored and kept
eligible for the result exactly when its overlap count is at least the
threshold: `result_words` equals the same loop run on the merged
candidates filtered by `threshold ≤ count`, so below-threshold candidates
are dropped before scoring; and the `Nat`-division threshold used by the
code coincides with `floor((len(query) + q - 1) / 4)` as a count bound. -/
theorem c4_prefilter_threshold (idx : PoiIndex) (query : String)
    (ch : Option Int) :
    (find_matches_result_words idx query ch =
        ((merged_candidates idx query).filter
            (fun rc => decide ((query.length + idx.q - 1) / 4 ≤ rc.2))).foldl
          (processEligible idx query ch) []) ∧
      ∀ count : Nat, ((query.length + idx.q - 1) / 4 ≤ count ↔
        ⌊(((query.length : ℚ) + (idx.q : ℚ) - 1) / 4)⌋ ≤ (count : ℤ)) :=
  ⟨foldl_processCandidate_filter idx query ch _ _ [],
    fun count => threshold_floor_iff query.length idx.q count⟩

theorem take_append_take (k k' : Nat) (hk : k ≤ k') (l : List ScoredMatch) :
    ∃ tail, l.take k ++ tail = l.take k' := by
  refine ⟨(l.take k').drop k, ?_⟩
  rw [show l.take k = (l.take k').take k by
    rw [List.take_take, min_eq_left hk]]
  exact List.take_append_drop k (l.take k')

/-- C7: for every index, query and configuration, the result of
`find_matches` is sorted ascending by score and has length at most `k`;
and for `k ≤ k'` the result for `k` is a prefix of the result for `k'`
(there is a tail extending the former to the latter): increasing `k`
never removes or reorders a previously returned match. -/
theorem c7_topk_prefix_monotone (idx : PoiIndex) (query : String) (d : Int)
    (k k' : Nat) (u : Bool) (ch : Option Int) (hk : k ≤ k') :
    (find_matches idx query d k u ch).Pairwise
        (fun a b => a.2.2.2 ≤ b.2.2.2) ∧
      (find_matches idx query d k u ch).length ≤ k ∧
      ∃ tail, find_matches idx query d k u ch ++ tail =
        find_matches idx query d k' u ch := by
  refine ⟨?_, ?_, ?_⟩
  · apply List.Pairwise.sublist (List.take_sublist _ _)
    have hs := @List.sorted_mergeSort ScoredMatch scoreLe
      (fun a b c hab hbc => by
        simp only [scoreLe, decide_eq_true_eq] at hab hbc ⊢
        exact le_trans hab hbc)
      (fun a b => by
        simp only [scoreLe, Bool.or_eq_true, decide_eq_true_eq]
        exact le_total _ _)
      (if u then find_matches_result_words idx query ch else [])
    exact hs.imp (fun h => by simpa [scoreLe] using h)
  · exact List.length_take_le _ _
  · exact take_append_take k k' hk _

/-- A geofence helper that rejects every point. -/
def rejectAll : Option PyVal → Option PyVal → Bool := fun _ _ => false

/-- A small concrete index holding the single record `"abc"` with `q = 3`,
geofences enabled, and reject-everything geofences registered under the
falsy channel id 0 and under the truthy channel id 1. -/
def cIdx : PoiIndex :=
  { q := 3
    inverted_lists :=
      [("$$a".toList, [0]), ("$ab".toList, [0]), ("abc".toList, [0]),
        ("bc$".toList, [0]), ("c$$".toList, [0])]
    vocab := ["abc"]
    latitude := [some (PyVal.vnum 1)]
    longitude := [some (PyVal.vnum 1)]
    types := [some RECORD_TYPE.GYM]
    scoring_method := SCORING_TYPE.AFFINE_GAPS
    use_geofences := true
    channel_to_geofence_helper := [(0, rejectAll), (1, rejectAll)] }

theorem c7_topk_prefix_monotone_witness :
    1 ≤ 2 ∧
      ((find_matches cIdx "abc" 0 1 true none).Pairwise
          (fun a b => a.2.2.2 ≤ b.2.2.2) ∧
        (find_matches cIdx "abc" 0 1 true none).length ≤ 1 ∧
        ∃ tail, find_matches cIdx "abc" 0 1 true none ++ tail =
          find_matches cIdx "abc" 0 2 true none) :=
  ⟨by decide, c7_topk_prefix_monotone cIdx "abc" 0 1 2 true none (by decide)⟩

theorem find_matches_geo_skip (idx : PoiIndex) (query : String) (d : Int)
    (k : Nat) (u : Bool) (ch : Option Int)
    (h : geoApplies idx ch = false) :
    find_matches idx query d k u ch = find_matches idx query d k u none := by
  have hnone : geoApplies idx none = false := by
    simp [geoApplies, chanTruthy]
  have hfn : processCandidate idx query ch ((query.length + idx.q - 1) / 4) =
      processCandidate idx query none ((query.length + idx.q - 1) / 4) := by
    funext acc rc
    simp [processCandidate, processEligible, h, hnone]
  simp only [find_matches, find_matches_result_words, hfn]

/-- C10: `find_matches` applies the geofence filter only when the channel
id is truthy and present in the channel-to-geofence mapping.  For any
falsy channel id (`None` or `0`) the result is the one of an unrestricted
query, even if a geofence is registered under that exact identifier: on
the concrete index `cIdx`, whose reject-everything geofence is registered
under channel 0, querying with channel 0 still returns the candidate,
while querying with the truthy registered channel 1 filters it out.  A
truthy channel id with no registered geofence also leaves the result
unrestricted. -/
theorem c10_geofence_falsy :
    (∀ (idx : PoiIndex) (query : String) (d : Int) (k : Nat) (u : Bool)
        (ch : Option Int), chanTruthy ch = false →
        find_matches idx query d k u ch = find_matches idx query d k u none) ∧
      (∀ (idx : PoiIndex) (query : String) (d : Int) (k : Nat) (u : Bool)
        (c : Int), idx.channel_to_geofence_helper.lookup c = none →
        find_matches idx query d k u (some c) =
          find_matches idx query d k u none) ∧
      find_matches cIdx "abc" 0 5 true (some 0) =
        [candidateEntry cIdx "abc" 0] ∧
      find_matches cIdx "abc" 0 5 true (some 1) = [] := by
  have hmc : merged_candidates cIdx "abc" = [(0, 5)] := by decide
  refine ⟨?_, ?_, ?_, ?_⟩
  · intro idx query d k u ch h
    exact find_matches_geo_skip idx query d k u ch (by simp [geoApplies, h])
  · intro idx query d k u c h
    exact find_matches_geo_skip idx query d k u (some c)
      (by simp [geoApplies, h])
  · have hrw : find_matches_result_words cIdx "abc" (some 0) =
        [candidateEntry cIdx "abc" 0] := by
      rw [find_matches_result_words, hmc]
      simp only [List.foldl_cons, List.foldl_nil]
      rw [processCandidate, if_pos (by decide)]
      simp only [processEligible]
      rw [if_neg (by decide)]
      simp
    simp [find_matches, hrw]
  · have hrw : find_matches_result_words cIdx "abc" (some 1) = [] := by
      rw [find_matches_result_words, hmc]
      simp only [List.foldl_cons, List.foldl_nil]
      rw [processCandidate, if_pos (by decide)]
      simp only [processEligible]
      rw [if_pos (by decide), if_neg (by decide)]
    simp [find_matches, hrw]

theorem c10_geofence_falsy_witness :
    chanTruthy (some 0) = false ∧
      find_matches cIdx "abc" 0 5 true (some 0) =
        find_matches cIdx "abc" 0 5 true none :=
  ⟨by decide, c10_geofence_falsy.1 cIdx "abc" 0 5 true (some 0) (by decide)⟩

end Raidquaza
